import Mathlib

/-!
Verification of the fzy-rs fuzzy matcher (src/src/lib.rs).

The Rust code computes over `f64` scores.  Every arithmetic operation the
algorithm performs is addition of finite constants (all small decimal
fractions), multiplication of a text index by a constant, and `max`, over
values that are either finite or the sentinel `NEG_INFINITY` /
`INFINITY`.  We model `f64` by the inductive type `FScore` below:
a value is `negInf`, a finite rational, or `posInf`.  Rust's
`f64::NEG_INFINITY + x = NEG_INFINITY` for finite `x`, and `+INFINITY`
never enters any arithmetic in this program, so the model is exact for
every computation the code performs.
-/

namespace Fzy

/-- Model of the `f64` values used by the scorer: the two infinite
sentinels and finite values (exact rationals). -/
inductive FScore where
  | negInf : FScore
  | fin : ℚ → FScore
  | posInf : FScore
deriving DecidableEq

namespace FScore

/-- Rust's `f1 > f2` on the floats that occur in this program
(no NaN ever arises: see the module docstring). -/
def sgt : FScore → FScore → Bool
  | negInf, _ => false
  | fin _, negInf => true
  | fin a, fin b => decide (b < a)
  | fin _, posInf => false
  | posInf, negInf => true
  | posInf, fin _ => true
  | posInf, posInf => false

/-- The source's `max` helper (lib.rs lines 16-23): `if f1 > f2 { f1 } else { f2 }`. -/
def fmax (f1 f2 : FScore) : FScore :=
  if f1.sgt f2 then f1 else f2

/-- `f64` addition on the values that occur in this program.  The
`posInf + negInf` cases would be NaN in `f64`; they are unreachable here
(`posInf` never enters the dynamic program). -/
def add : FScore → FScore → FScore
  | fin a, fin b => fin (a + b)
  | negInf, negInf => negInf
  | negInf, fin _ => negInf
  | fin _, negInf => negInf
  | posInf, posInf => posInf
  | posInf, fin _ => posInf
  | fin _, posInf => posInf
  | posInf, negInf => negInf
  | negInf, posInf => negInf

end FScore

/-- `SCORE_MIN` (lib.rs line 5): `Score::NEG_INFINITY`. -/
def SCORE_MIN : FScore := .negInf

/-- `SCORE_MAX` (lib.rs line 6): `Score::INFINITY`. -/
def SCORE_MAX : FScore := .posInf

/-- `SCORE_GAP_LEADING` (lib.rs line 7). -/
def SCORE_GAP_LEADING : ℚ := -0.005

/-- `SCORE_GAP_TRAILING` (lib.rs line 8). -/
def SCORE_GAP_TRAILING : ℚ := -0.005

/-- `SCORE_GAP_INNER` (lib.rs line 9). -/
def SCORE_GAP_INNER : ℚ := -0.01

/-- `SCORE_MATCH_CONSECUTIVE` (lib.rs line 10). -/
def SCORE_MATCH_CONSECUTIVE : ℚ := 1.0

/-- `SCORE_MATCH_SLASH` (lib.rs line 11). -/
def SCORE_MATCH_SLASH : ℚ := 0.9

/-- `SCORE_MATCH_WORD` (lib.rs line 12). -/
def SCORE_MATCH_WORD : ℚ := 0.8

/-- `SCORE_MATCH_CAPITAL` (lib.rs line 13). -/
def SCORE_MATCH_CAPITAL : ℚ := 0.7

/-- `SCORE_MATCH_DOT` (lib.rs line 14). -/
def SCORE_MATCH_DOT : ℚ := 0.6

/-- `u8::to_ascii_lowercase`: map `b'A'..=b'Z'` to the corresponding
lowercase letter, leave every other byte unchanged. -/
def toLower (b : Nat) : Nat :=
  if 65 ≤ b ∧ b ≤ 90 then b + 32 else b

/-- `slice::to_ascii_lowercase` on a byte string. -/
def lowercase (s : List Nat) : List Nat :=
  s.map toLower

/-- `compute_bonus` (lib.rs lines 26-43).  Byte literals:
`b'A'..=b'Z'` is `65..=90`, `b'a'..=b'z'` is `97..=122`,
`b'0'..=b'9'` is `48..=57`, `b'/'` is 47, `b'-'` is 45, `b'_'` is 95,
`b' '` is 32, `b'.'` is 46. -/
def compute_bonus (cur prev : Nat) : ℚ :=
  if 65 ≤ cur ∧ cur ≤ 90 then
    if 97 ≤ prev ∧ prev ≤ 122 then SCORE_MATCH_CAPITAL
    else if prev = 47 then SCORE_MATCH_SLASH
    else if prev = 45 ∨ prev = 95 ∨ prev = 32 then SCORE_MATCH_WORD
    else if prev = 46 then SCORE_MATCH_DOT
    else 0
  else if (97 ≤ cur ∧ cur ≤ 122) ∨ (48 ≤ cur ∧ cur ≤ 57) then
    if prev = 47 then SCORE_MATCH_SLASH
    else if prev = 45 ∨ prev = 95 ∨ prev = 32 then SCORE_MATCH_WORD
    else if prev = 46 then SCORE_MATCH_DOT
    else 0
  else 0

/-- The fold inside `compute_bonuses` (lib.rs lines 47-53): each position
gets `compute_bonus cur prev` where `prev` is the previous byte. -/
def computeBonusesAux (prev : Nat) : List Nat → List ℚ
  | [] => []
  | c :: rest => compute_bonus c prev :: computeBonusesAux c rest

/-- `compute_bonuses` (lib.rs lines 46-55): the fold starts with the
virtual previous byte `b'/'` (47). -/
def compute_bonuses (text : List Nat) : List ℚ :=
  computeBonusesAux 47 text

/-- The loop of `has_match` (lib.rs lines 62-71): `pi` is the pattern
cursor; on each text byte, advance `pi` when it equals `pat[pi]`, and
return `true` as soon as `pi` reaches `pat.len()`; after the loop return
`pi == pat.len()`. -/
def hasMatchLoop (pat : List Nat) : List Nat → Nat → Bool
  | [], pi => decide (pi = pat.length)
  | tc :: rest, pi =>
    let pi2 := if tc = pat.getD pi 0 then pi + 1 else pi
    if pi2 = pat.length then true else hasMatchLoop pat rest pi2

/-- `has_match` (lib.rs lines 57-72). -/
def has_match (pat text : List Nat) : Bool :=
  if pat.isEmpty then true
  else hasMatchLoop pat text 0

/-- The body of `score`'s inner loop (lib.rs lines 98-116) for one text
index `ti` with text byte `tc` (already case-folded): returns the pair
written to `(cur_d[ti], cur_m[ti])`; the second component is also the
updated `prev_score`. -/
def scoreCell (pc : Nat) (gap : ℚ) (pi : Nat) (bonuses : List ℚ)
    (prevD prevM : List FScore) (ti : Nat) (tc : Nat) (prevScore : FScore) :
    FScore × FScore :=
  if pc = tc then
    let s : FScore :=
      if pi = 0 then .fin ((ti : ℚ) * SCORE_GAP_LEADING + bonuses.getD ti 0)
      else if 0 < ti then
        FScore.fmax
          ((prevM.getD (ti - 1) (.fin 0)).add (.fin (bonuses.getD ti 0)))
          ((prevD.getD (ti - 1) (.fin 0)).add (.fin SCORE_MATCH_CONSECUTIVE))
      else SCORE_MIN
    (s, FScore.fmax s (prevScore.add (.fin gap)))
  else
    (SCORE_MIN, prevScore.add (.fin gap))

/-- The inner loop of `score` (lib.rs lines 97-117): walk the case-folded
text from index `ti` carrying `prev_score`, producing the `cur_d` and
`cur_m` buffers (as the lists of values written at indices `ti`, `ti+1`, ...). -/
def scoreRow (pc : Nat) (gap : ℚ) (pi : Nat) (bonuses : List ℚ)
    (prevD prevM : List FScore) :
    List Nat → Nat → FScore → List FScore × List FScore
  | [], _, _ => ([], [])
  | tc :: rest, ti, prevScore =>
    let cell := scoreCell pc gap pi bonuses prevD prevM ti tc prevScore
    let tail := scoreRow pc gap pi bonuses prevD prevM rest (ti + 1) cell.2
    (cell.1 :: tail.1, cell.2 :: tail.2)

/-- The outer loop of `score` (lib.rs lines 89-121): iterate over the
case-folded pattern with index `pi`; each iteration computes the current
`d`/`m` buffers from the previous ones (the `swap` calls make the current
buffers the previous ones of the next iteration).  Returns the final
`(prev_d, prev_m)` pair. -/
def scoreLoops (patLen : Nat) (bonuses : List ℚ) (textL : List Nat) :
    List Nat → Nat → List FScore → List FScore → List FScore × List FScore
  | [], _, prevD, prevM => (prevD, prevM)
  | pc :: rest, pi, prevD, prevM =>
    let gap : ℚ := if pi = patLen - 1 then SCORE_GAP_TRAILING else SCORE_GAP_INNER
    let row := scoreRow pc gap pi bonuses prevD prevM textL 0 SCORE_MIN
    scoreLoops patLen bonuses textL rest (pi + 1) row.1 row.2

/-- `score` (lib.rs lines 74-123).  The buffers start as vectors of `0.0`
of the text's length; the result is `*prev_m.last().unwrap()`. -/
def score (pat text : List Nat) : FScore :=
  if pat.length = 0 ∨ pat.length > text.length then SCORE_MIN
  else if pat.length = text.length then SCORE_MAX
  else
    let bonuses := compute_bonuses text
    let final := scoreLoops pat.length bonuses (lowercase text) (lowercase pat) 0
      (List.replicate text.length (.fin 0)) (List.replicate text.length (.fin 0))
    final.2.getLast?.getD SCORE_MIN

/-- The loop of `has_match` with every slice index checked: `pat[pi]`
(lib.rs line 64) panics when out of bounds; here that is `none`. -/
def hasMatchLoopC (pat : List Nat) : List Nat → Nat → Option Bool
  | [], pi => pure (decide (pi = pat.length))
  | tc :: rest, pi => do
    let pc ← pat.get? pi
    let pi2 := if tc = pc then pi + 1 else pi
    if pi2 = pat.length then pure true else hasMatchLoopC pat rest pi2

/-- `has_match` with every slice index checked: `none` models a panic. -/
def has_match_checked (pat text : List Nat) : Option Bool :=
  if pat.isEmpty then pure true
  else hasMatchLoopC pat text 0

/-- The body of `score`'s inner loop with every buffer index checked:
`bonuses[ti]`, `prev_m[ti - 1]` and `prev_d[ti - 1]` (lib.rs lines
100-104) panic when out of bounds; here that is `none`. -/
def scoreCellC (pc : Nat) (gap : ℚ) (pi : Nat) (bonuses : List ℚ)
    (prevD prevM : List FScore) (ti : Nat) (tc : Nat) (prevScore : FScore) :
    Option (FScore × FScore) :=
  if pc = tc then do
    let s ←
      if pi = 0 then do
        let b ← bonuses.get? ti
        pure (FScore.fin ((ti : ℚ) * SCORE_GAP_LEADING + b))
      else if 0 < ti then do
        let m ← prevM.get? (ti - 1)
        let b ← bonuses.get? ti
        let d ← prevD.get? (ti - 1)
        pure (FScore.fmax (m.add (.fin b)) (d.add (.fin SCORE_MATCH_CONSECUTIVE)))
      else pure SCORE_MIN
    pure (s, FScore.fmax s (prevScore.add (.fin gap)))
  else pure (SCORE_MIN, prevScore.add (.fin gap))

/-- The inner loop of `score` with every buffer index checked. -/
def scoreRowC (pc : Nat) (gap : ℚ) (pi : Nat) (bonuses : List ℚ)
    (prevD prevM : List FScore) :
    List Nat → Nat → FScore → Option (List FScore × List FScore)
  | [], _, _ => pure ([], [])
  | tc :: rest, ti, prevScore => do
    let cell ← scoreCellC pc gap pi bonuses prevD prevM ti tc prevScore
    let tail ← scoreRowC pc gap pi bonuses prevD prevM rest (ti + 1) cell.2
    pure (cell.1 :: tail.1, cell.2 :: tail.2)

/-- The outer loop of `score` with every buffer index checked. -/
def scoreLoopsC (patLen : Nat) (bonuses : List ℚ) (textL : List Nat) :
    List Nat → Nat → List FScore → List FScore →
    Option (List FScore × List FScore)
  | [], _, prevD, prevM => pure (prevD, prevM)
  | pc :: rest, pi, prevD, prevM => do
    let gap : ℚ := if pi = patLen - 1 then SCORE_GAP_TRAILING else SCORE_GAP_INNER
    let row ← scoreRowC pc gap pi bonuses prevD prevM textL 0 SCORE_MIN
    scoreLoopsC patLen bonuses textL rest (pi + 1) row.1 row.2

/-- `score` with every buffer index checked, and the final
`prev_m.last().unwrap()` (lib.rs line 122) modelled by `Option`:
`none` models a panic anywhere during the computation. -/
def score_checked (pat text : List Nat) : Option FScore :=
  if pat.length = 0 ∨ pat.length > text.length then pure SCORE_MIN
  else if pat.length = text.length then pure SCORE_MAX
  else do
    let bonuses := compute_bonuses text
    let final ← scoreLoopsC pat.length bonuses (lowercase text) (lowercase pat) 0
      (List.replicate text.length (.fin 0)) (List.replicate text.length (.fin 0))
    let last ← final.2.getLast?
    pure last

/-- Modelled from the spec, section 4.3: the gap penalty chosen for
pattern index `pi` — trailing on the last pattern index, inner otherwise. -/
def specGap (pat : List Nat) (pi : Nat) : ℚ :=
  if pi = pat.length - 1 then SCORE_GAP_TRAILING else SCORE_GAP_INNER

/-- Modelled from the spec, section 4.3: one cell of the full-table
dynamic program.  Given the previous pattern row as functions `pD`
(the run buffer `D`) and `pM` (the best-so-far buffer `M`), the cell at
`(pi, ti)` with incoming running best `run` returns `(D[pi][ti], M[pi][ti])`. -/
def specRowCell (pat text : List Nat) (pD pM : Nat → FScore) (pi ti : Nat)
    (run : FScore) : FScore × FScore :=
  let pc := (lowercase pat).getD pi 0
  let tc := (lowercase text).getD ti 0
  let b := (compute_bonuses text).getD ti 0
  let gap := specGap pat pi
  if pc = tc then
    let d : FScore :=
      if pi = 0 then .fin ((ti : ℚ) * SCORE_GAP_LEADING + b)
      else if 0 < ti then
        FScore.fmax ((pM (ti - 1)).add (.fin b))
          ((pD (ti - 1)).add (.fin SCORE_MATCH_CONSECUTIVE))
      else SCORE_MIN
    (d, FScore.fmax d (run.add (.fin gap)))
  else (SCORE_MIN, run.add (.fin gap))

/-- Modelled from the spec, section 4.3: row `pi` of the full table, as a
function of the text index; the running best is threaded from `ti = 0`
(where it starts at the sentinel minimum). -/
def specRow (pat text : List Nat) (pD pM : Nat → FScore) (pi : Nat) :
    Nat → FScore × FScore
  | 0 => specRowCell pat text pD pM pi 0 SCORE_MIN
  | ti + 1 => specRowCell pat text pD pM pi (ti + 1) (specRow pat text pD pM pi ti).2

/-- Modelled from the spec, section 4.3: the full DP table, row by row.
Row 0 reads no previous row (its cells take the `pi = 0` branch), so the
previous-row functions passed there are irrelevant placeholders. -/
def specTable (pat text : List Nat) : Nat → (Nat → FScore) × (Nat → FScore)
  | 0 =>
    (fun ti => (specRow pat text (fun _ => SCORE_MIN) (fun _ => SCORE_MIN) 0 ti).1,
     fun ti => (specRow pat text (fun _ => SCORE_MIN) (fun _ => SCORE_MIN) 0 ti).2)
  | pi + 1 =>
    (fun ti =>
      (specRow pat text (specTable pat text pi).1 (specTable pat text pi).2 (pi + 1) ti).1,
     fun ti =>
      (specRow pat text (specTable pat text pi).1 (specTable pat text pi).2 (pi + 1) ti).2)

/-- The full-table `D` entry at `(pi, ti)` (spec section 4.3). -/
def specD (pat text : List Nat) (pi ti : Nat) : FScore :=
  (specTable pat text pi).1 ti

/-- The full-table `M` entry at `(pi, ti)` (spec section 4.3). -/
def specM (pat text : List Nat) (pi ti : Nat) : FScore :=
  (specTable pat text pi).2 ti

/-- Modelled from the spec, sections 4.3 and 4.4: the score computed by
the full-table dynamic program, with the same degenerate-input guards as
the code, and final result `M[len(P)-1][len(T)-1]`. -/
def score_spec (pat text : List Nat) : FScore :=
  if pat.length = 0 ∨ pat.length > text.length then SCORE_MIN
  else if pat.length = text.length then SCORE_MAX
  else specM pat text (pat.length - 1) (text.length - 1)


/-! ### The matchability check decides the subsequence relation -/

theorem hasMatchLoop_iff_sublist (pat : List Nat) (rest : List Nat) :
    ∀ pi : Nat, pi < pat.length →
      (hasMatchLoop pat rest pi = true ↔ (pat.drop pi).Sublist rest) := by
  induction rest with
  | nil =>
    intro pi h
    simp only [hasMatchLoop, List.sublist_nil, List.drop_eq_nil_iff,
      decide_eq_true_eq]
    omega
  | cons tc rs ih =>
    intro pi h
    have hget : pat.getD pi 0 = pat[pi] := by
      simp [List.getElem?_eq_getElem h]
    have hdrop : pat.drop pi = pat[pi] :: pat.drop (pi + 1) :=
      List.drop_eq_getElem_cons h
    simp only [hasMatchLoop]
    by_cases hc : tc = pat.getD pi 0
    · rw [if_pos hc]
      by_cases he : pi + 1 = pat.length
      · rw [if_pos he]
        have hdrop2 : pat.drop (pi + 1) = [] := by
          rw [List.drop_eq_nil_iff]; omega
        rw [hdrop, hdrop2, hc, hget]
        simp [List.cons_sublist_cons]
      · rw [if_neg he]
        have hlt : pi + 1 < pat.length := by omega
        rw [ih (pi + 1) hlt, hdrop, hc, hget, List.cons_sublist_cons]
    · rw [if_neg hc]
      have hne : ¬ pi = pat.length := by omega
      rw [if_neg hne, ih pi h, hdrop, List.cons_sublist_cons']
      have hne2 : ¬ pat[pi] = tc := by
        intro hcontra
        exact hc (by rw [hget, hcontra])
      constructor
      · intro hs
        rw [← hdrop]
        exact Or.inl (by rw [hdrop]; exact hs)
      · rintro (hs | ⟨heq, _⟩)
        · rw [← hdrop] at hs ⊢
          exact hs
        · exact absurd heq hne2

theorem has_match_iff_sublist (pat text : List Nat) :
    has_match pat text = true ↔ pat.Sublist text := by
  cases pat with
  | nil => simp [has_match]
  | cons p ps =>
    have h0 : 0 < (p :: ps).length := by simp
    have hloop := hasMatchLoop_iff_sublist (p :: ps) text 0 h0
    rw [List.drop_zero] at hloop
    simpa [has_match] using hloop

/-! ### Totality: the checked versions never hit an out-of-bounds access -/

theorem computeBonusesAux_length (prev : Nat) (l : List Nat) :
    (computeBonusesAux prev l).length = l.length := by
  induction l generalizing prev with
  | nil => rfl
  | cons c rest ih => simp [computeBonusesAux, ih]

theorem compute_bonuses_length (text : List Nat) :
    (compute_bonuses text).length = text.length :=
  computeBonusesAux_length 47 text

theorem lowercase_length (s : List Nat) : (lowercase s).length = s.length :=
  List.length_map s toLower

theorem get?_eq_some_getD {α : Type} (l : List α) (i : Nat) (d : α)
    (h : i < l.length) : l.get? i = some (l.getD i d) := by
  simp [List.get?_eq_getElem?, List.getElem?_eq_getElem h]

theorem hasMatchLoopC_eq (pat : List Nat) (rest : List Nat) :
    ∀ pi : Nat, pi < pat.length →
      hasMatchLoopC pat rest pi = some (hasMatchLoop pat rest pi) := by
  induction rest with
  | nil => intro pi _; rfl
  | cons tc rs ih =>
    intro pi h
    simp only [hasMatchLoopC, hasMatchLoop, get?_eq_some_getD pat pi 0 h,
      Option.pure_def, Option.bind_eq_bind, Option.some_bind]
    by_cases he : (if tc = pat.getD pi 0 then pi + 1 else pi) = pat.length
    · rw [if_pos he, if_pos he]
    · rw [if_neg he, if_neg he]
      refine ih _ ?_
      by_cases hc : tc = pat.getD pi 0
      · rw [if_pos hc] at he ⊢; omega
      · rw [if_neg hc] at he ⊢; omega

theorem scoreCellC_eq (pc : Nat) (gap : ℚ) (pi : Nat) (bonuses : List ℚ)
    (prevD prevM : List FScore) (ti : Nat) (tc : Nat) (ps : FScore)
    (hb : ti < bonuses.length) (hd : ti - 1 < prevD.length)
    (hm : ti - 1 < prevM.length) :
    scoreCellC pc gap pi bonuses prevD prevM ti tc ps =
      some (scoreCell pc gap pi bonuses prevD prevM ti tc ps) := by
  unfold scoreCellC scoreCell
  by_cases hc : pc = tc
  · rw [if_pos hc, if_pos hc]
    by_cases h0 : pi = 0
    · simp [h0, List.getElem?_eq_getElem hb]
    · by_cases ht : 0 < ti
      · simp [h0, ht, List.getElem?_eq_getElem hb,
          List.getElem?_eq_getElem hm, List.getElem?_eq_getElem hd]
      · simp [h0, ht]
  · rw [if_neg hc, if_neg hc]; rfl

theorem scoreRow_length (pc : Nat) (gap : ℚ) (pi : Nat) (bonuses : List ℚ)
    (prevD prevM : List FScore) :
    ∀ (rest : List Nat) (ti : Nat) (ps : FScore),
      (scoreRow pc gap pi bonuses prevD prevM rest ti ps).1.length = rest.length ∧
      (scoreRow pc gap pi bonuses prevD prevM rest ti ps).2.length = rest.length := by
  intro rest
  induction rest with
  | nil => intro ti ps; simp [scoreRow]
  | cons tc rs ih => intro ti ps; simp [scoreRow, ih]

theorem scoreRowC_eq (pc : Nat) (gap : ℚ) (pi : Nat) (bonuses : List ℚ)
    (prevD prevM : List FScore)
    (hd : prevD.length = bonuses.length) (hm : prevM.length = bonuses.length) :
    ∀ (rest : List Nat) (ti : Nat) (ps : FScore),
      ti + rest.length ≤ bonuses.length →
      scoreRowC pc gap pi bonuses prevD prevM rest ti ps =
        some (scoreRow pc gap pi bonuses prevD prevM rest ti ps) := by
  intro rest
  induction rest with
  | nil => intro ti ps _; rfl
  | cons tc rs ih =>
    intro ti ps h
    have hlen : ti < bonuses.length := by
      simp only [List.length_cons] at h; omega
    have hcell := scoreCellC_eq pc gap pi bonuses prevD prevM ti tc ps hlen
      (by omega) (by omega)
    have htail := ih (ti + 1) (scoreCell pc gap pi bonuses prevD prevM ti tc ps).2
      (by simp only [List.length_cons] at h; omega)
    simp only [scoreRowC, scoreRow, hcell, htail, Option.pure_def,
      Option.bind_eq_bind, Option.some_bind]

theorem scoreLoops_length (patLen : Nat) (bonuses : List ℚ) (textL : List Nat) :
    ∀ (restPat : List Nat) (pi : Nat) (prevD prevM : List FScore),
      prevD.length = textL.length → prevM.length = textL.length →
      (scoreLoops patLen bonuses textL restPat pi prevD prevM).1.length = textL.length ∧
      (scoreLoops patLen bonuses textL restPat pi prevD prevM).2.length = textL.length := by
  intro restPat
  induction restPat with
  | nil => intro pi prevD prevM h1 h2; simpa [scoreLoops] using ⟨h1, h2⟩
  | cons pc rs ih =>
    intro pi prevD prevM h1 h2
    simp only [scoreLoops]
    exact ih (pi + 1) _ _
      (scoreRow_length pc (if pi = patLen - 1 then SCORE_GAP_TRAILING else SCORE_GAP_INNER)
        pi bonuses prevD prevM textL 0 SCORE_MIN).1
      (scoreRow_length pc (if pi = patLen - 1 then SCORE_GAP_TRAILING else SCORE_GAP_INNER)
        pi bonuses prevD prevM textL 0 SCORE_MIN).2

theorem scoreLoopsC_eq (patLen : Nat) (bonuses : List ℚ) (textL : List Nat)
    (ht : textL.length = bonuses.length) :
    ∀ (restPat : List Nat) (pi : Nat) (prevD prevM : List FScore),
      prevD.length = textL.length → prevM.length = textL.length →
      scoreLoopsC patLen bonuses textL restPat pi prevD prevM =
        some (scoreLoops patLen bonuses textL restPat pi prevD prevM) := by
  intro restPat
  induction restPat with
  | nil => intro pi prevD prevM _ _; rfl
  | cons pc rs ih =>
    intro pi prevD prevM h1 h2
    have hrow := scoreRowC_eq pc
      (if pi = patLen - 1 then SCORE_GAP_TRAILING else SCORE_GAP_INNER) pi bonuses
      prevD prevM (by omega) (by omega) textL 0 SCORE_MIN (by omega)
    have htail := ih (pi + 1) _ _
      (scoreRow_length pc (if pi = patLen - 1 then SCORE_GAP_TRAILING else SCORE_GAP_INNER)
        pi bonuses prevD prevM textL 0 SCORE_MIN).1
      (scoreRow_length pc (if pi = patLen - 1 then SCORE_GAP_TRAILING else SCORE_GAP_INNER)
        pi bonuses prevD prevM textL 0 SCORE_MIN).2
    simp only [scoreLoopsC, scoreLoops, hrow, htail, Option.pure_def,
      Option.bind_eq_bind, Option.some_bind]

theorem has_match_checked_eq (pat text : List Nat) :
    has_match_checked pat text = some (has_match pat text) := by
  cases pat with
  | nil => rfl
  | cons p ps =>
    have h0 : 0 < (p :: ps).length := by simp
    simp only [has_match_checked, has_match, List.isEmpty_cons]
    exact hasMatchLoopC_eq (p :: ps) text 0 h0

theorem score_checked_eq (pat text : List Nat) :
    score_checked pat text = some (score pat text) := by
  unfold score_checked score
  by_cases h1 : pat.length = 0 ∨ pat.length > text.length
  · rw [if_pos h1, if_pos h1]; rfl
  · rw [if_neg h1, if_neg h1]
    by_cases h2 : pat.length = text.length
    · rw [if_pos h2, if_pos h2]; rfl
    · rw [if_neg h2, if_neg h2]
      have hb := compute_bonuses_length text
      have hlow := lowercase_length text
      have hrep : (List.replicate text.length (FScore.fin 0)).length =
          (lowercase text).length := by simp [hlow]
      have hloops := scoreLoopsC_eq pat.length (compute_bonuses text)
        (lowercase text) (by omega) (lowercase pat) 0 _ _ hrep hrep
      have hlen := (scoreLoops_length pat.length (compute_bonuses text)
        (lowercase text) (lowercase pat) 0 _ _ hrep hrep).2
      have hpos : 0 < text.length := by omega
      have hne : (scoreLoops pat.length (compute_bonuses text) (lowercase text)
          (lowercase pat) 0 (List.replicate text.length (FScore.fin 0))
          (List.replicate text.length (FScore.fin 0))).2 ≠ [] := by
        intro hcontra
        rw [hcontra] at hlen
        simp [hlow] at hlen
        omega
      have hlast := List.getLast?_eq_getLast_of_ne_nil hne
      simp [hloops, hlast]

/-! ### The rolling-buffer implementation computes the full-table DP -/

theorem scoreCell_eq_specRowCell (pat text : List Nat) (pD pM : Nat → FScore)
    (prevD prevM : List FScore) (pi ti : Nat) (run : FScore)
    (hprev : pi = 0 ∨ (prevM.getD (ti - 1) (.fin 0) = pM (ti - 1) ∧
      prevD.getD (ti - 1) (.fin 0) = pD (ti - 1))) :
    scoreCell ((lowercase pat).getD pi 0) (specGap pat pi) pi (compute_bonuses text)
      prevD prevM ti ((lowercase text).getD ti 0) run =
    specRowCell pat text pD pM pi ti run := by
  simp only [scoreCell, specRowCell]
  by_cases hc : (lowercase pat).getD pi 0 = (lowercase text).getD ti 0
  · rw [if_pos hc, if_pos hc]
    rcases hprev with h0 | ⟨hM, hD⟩
    · simp [h0]
    · by_cases h0 : pi = 0
      · simp [h0]
      · by_cases ht : 0 < ti
        · simp only [if_neg h0, if_pos ht, hM, hD]
        · simp [h0, ht]
  · rw [if_neg hc, if_neg hc]

theorem scoreRow_eq_specRow (pat text : List Nat) (pD pM : Nat → FScore)
    (prevD prevM : List FScore) (pi : Nat)
    (hprev : pi = 0 ∨ ∀ j, j < (lowercase text).length →
      prevM.getD j (.fin 0) = pM j ∧ prevD.getD j (.fin 0) = pD j) :
    ∀ (rest : List Nat) (k : Nat) (run : FScore),
      rest = (lowercase text).drop k →
      run = (if k = 0 then SCORE_MIN else (specRow pat text pD pM pi (k - 1)).2) →
      ∀ j, j < rest.length →
        (scoreRow ((lowercase pat).getD pi 0) (specGap pat pi) pi
            (compute_bonuses text) prevD prevM rest k run).1.getD j (.fin 0) =
          (specRow pat text pD pM pi (k + j)).1 ∧
        (scoreRow ((lowercase pat).getD pi 0) (specGap pat pi) pi
            (compute_bonuses text) prevD prevM rest k run).2.getD j (.fin 0) =
          (specRow pat text pD pM pi (k + j)).2 := by
  intro rest
  induction rest with
  | nil =>
    intro k run _ _ j hj
    exact absurd hj (by simp)
  | cons tc rs ih =>
    intro k run hrest hrun j hj
    have hk : k < (lowercase text).length := by
      by_contra hcontra
      push_neg at hcontra
      have hnil : (lowercase text).drop k = [] := by
        rw [List.drop_eq_nil_iff]; omega
      rw [hnil] at hrest
      exact absurd hrest (by simp)
    rw [List.drop_eq_getElem_cons hk] at hrest
    injection hrest with htc hrs
    have hgetd : (lowercase text).getD k 0 = (lowercase text)[k] := by
      simp [List.getElem?_eq_getElem hk]
    subst htc
    have hcellhyp : pi = 0 ∨ (prevM.getD (k - 1) (.fin 0) = pM (k - 1) ∧
        prevD.getD (k - 1) (.fin 0) = pD (k - 1)) := by
      rcases hprev with h0 | hcorr
      · exact Or.inl h0
      · exact Or.inr (hcorr (k - 1) (by omega))
    have hcell := scoreCell_eq_specRowCell pat text pD pM prevD prevM pi k run hcellhyp
    rw [hgetd] at hcell
    have hspec : specRowCell pat text pD pM pi k run = specRow pat text pD pM pi k := by
      cases k with
      | zero => simp only [specRow]; rw [hrun]; rfl
      | succ kk =>
        simp only [specRow]
        rw [hrun]
        simp
    simp only [scoreRow]
    cases j with
    | zero =>
      simp only [List.getD_cons_zero, Nat.add_zero]
      exact ⟨by rw [hcell, hspec], by rw [hcell, hspec]⟩
    | succ jj =>
      simp only [List.getD_cons_succ]
      have hidx : k + (jj + 1) = (k + 1) + jj := by omega
      rw [hidx]
      have hrun2 : (scoreCell ((lowercase pat).getD pi 0) (specGap pat pi) pi
          (compute_bonuses text) prevD prevM k ((lowercase text)[k]) run).2 =
          (if k + 1 = 0 then SCORE_MIN
           else (specRow pat text pD pM pi ((k + 1) - 1)).2) := by
        rw [if_neg (Nat.succ_ne_zero k)]
        simp only [Nat.add_sub_cancel]
        rw [hcell, hspec]
      exact ih (k + 1) _ hrs hrun2 jj (by simpa using Nat.lt_of_succ_lt_succ (by simpa using hj))

/-- The spec table's previous-row `D` function for row `pi`: a placeholder
for row 0 (whose cells read no previous row), row `pi - 1` otherwise. -/
def specPrevD (pat text : List Nat) : Nat → Nat → FScore
  | 0 => fun _ => SCORE_MIN
  | pi + 1 => (specTable pat text pi).1

/-- The spec table's previous-row `M` function for row `pi`. -/
def specPrevM (pat text : List Nat) : Nat → Nat → FScore
  | 0 => fun _ => SCORE_MIN
  | pi + 1 => (specTable pat text pi).2

theorem specD_eq_specRow (pat text : List Nat) (pi ti : Nat) :
    specD pat text pi ti =
      (specRow pat text (specPrevD pat text pi) (specPrevM pat text pi) pi ti).1 := by
  cases pi <;> rfl

theorem specM_eq_specRow (pat text : List Nat) (pi ti : Nat) :
    specM pat text pi ti =
      (specRow pat text (specPrevD pat text pi) (specPrevM pat text pi) pi ti).2 := by
  cases pi <;> rfl

theorem scoreLoops_eq_spec (pat text : List Nat) (hpat : 0 < pat.length) :
    ∀ (restPat : List Nat) (pi : Nat) (prevD prevM : List FScore),
      restPat = (lowercase pat).drop pi →
      pi ≤ pat.length →
      (pi = 0 ∨ ∀ j, j < (lowercase text).length →
        prevM.getD j (.fin 0) = specM pat text (pi - 1) j ∧
        prevD.getD j (.fin 0) = specD pat text (pi - 1) j) →
      ∀ j, j < (lowercase text).length →
        (scoreLoops pat.length (compute_bonuses text) (lowercase text)
          restPat pi prevD prevM).2.getD j (.fin 0) =
            specM pat text (pat.length - 1) j ∧
        (scoreLoops pat.length (compute_bonuses text) (lowercase text)
          restPat pi prevD prevM).1.getD j (.fin 0) =
            specD pat text (pat.length - 1) j := by
  intro restPat
  induction restPat with
  | nil =>
    intro pi prevD prevM hdrop hle hinv j hj
    have hge : (lowercase pat).length ≤ pi := List.drop_eq_nil_iff.mp hdrop.symm
    rw [lowercase_length] at hge
    have hpi : pi = pat.length := by omega
    rcases hinv with h0 | hcorr
    · omega
    · have hc := hcorr j hj
      rw [hpi] at hc
      simpa [scoreLoops] using hc
  | cons pc rs ih =>
    intro pi prevD prevM hdrop hle hinv j hj
    have hpi : pi < (lowercase pat).length := by
      by_contra hcontra
      push_neg at hcontra
      have hnil : (lowercase pat).drop pi = [] := by
        rw [List.drop_eq_nil_iff]; omega
      rw [hnil] at hdrop
      exact absurd hdrop (by simp)
    rw [List.drop_eq_getElem_cons hpi] at hdrop
    injection hdrop with hpc hrs
    have hgetp : (lowercase pat).getD pi 0 = (lowercase pat)[pi] := by
      simp [List.getElem?_eq_getElem hpi]
    subst hpc
    have hprev : pi = 0 ∨ ∀ j, j < (lowercase text).length →
        prevM.getD j (.fin 0) = specPrevM pat text pi j ∧
        prevD.getD j (.fin 0) = specPrevD pat text pi j := by
      rcases hinv with h0 | hcorr
      · exact Or.inl h0
      · cases pi with
        | zero => exact Or.inl rfl
        | succ pj => exact Or.inr (fun j hj => hcorr j hj)
    have hrow := scoreRow_eq_specRow pat text (specPrevD pat text pi)
      (specPrevM pat text pi) prevD prevM pi hprev (lowercase text) 0 SCORE_MIN
      (by simp) (by simp)
    have hgap : (if pi = pat.length - 1 then SCORE_GAP_TRAILING else SCORE_GAP_INNER) =
        specGap pat pi := rfl
    simp only [scoreLoops, hgap, ← hgetp]
    refine ih (pi + 1)
      (scoreRow ((lowercase pat).getD pi 0) (specGap pat pi) pi
        (compute_bonuses text) prevD prevM (lowercase text) 0 SCORE_MIN).1
      (scoreRow ((lowercase pat).getD pi 0) (specGap pat pi) pi
        (compute_bonuses text) prevD prevM (lowercase text) 0 SCORE_MIN).2
      hrs (by rw [lowercase_length] at hpi; omega) ?_ j hj
    refine Or.inr (fun j2 hj2 => ?_)
    have hr := hrow j2 (by simpa using hj2)
    simp only [Nat.zero_add] at hr
    refine ⟨?_, ?_⟩
    · rw [hr.2, Nat.add_sub_cancel, specM_eq_specRow]
    · rw [hr.1, Nat.add_sub_cancel, specD_eq_specRow]

theorem getLast?_getD_eq_getD {α : Type} (l : List α) (d1 d2 : α) (h : l ≠ []) :
    l.getLast?.getD d1 = l.getD (l.length - 1) d2 := by
  have hlt : l.length - 1 < l.length := by
    cases l with
    | nil => exact absurd rfl h
    | cons a as => simp
  rw [List.getLast?_eq_getLast_of_ne_nil h, List.getLast_eq_getElem]
  simp [List.getElem?_eq_getElem hlt]

theorem score_eq_specM (pat text : List Nat) (h1 : 0 < pat.length)
    (h2 : pat.length < text.length) :
    score pat text = specM pat text (pat.length - 1) (text.length - 1) := by
  have hg1 : ¬(pat.length = 0 ∨ pat.length > text.length) := by omega
  have hg2 : ¬pat.length = text.length := by omega
  unfold score
  rw [if_neg hg1, if_neg hg2]
  have hrep : (List.replicate text.length (FScore.fin 0)).length =
      (lowercase text).length := by simp [lowercase_length]
  have hlen := (scoreLoops_length pat.length (compute_bonuses text)
    (lowercase text) (lowercase pat) 0 _ _ hrep hrep).2
  have hne : (scoreLoops pat.length (compute_bonuses text) (lowercase text)
      (lowercase pat) 0 (List.replicate text.length (FScore.fin 0))
      (List.replicate text.length (FScore.fin 0))).2 ≠ [] := by
    intro hcontra
    rw [hcontra] at hlen
    simp [lowercase_length] at hlen
    omega
  rw [getLast?_getD_eq_getD _ SCORE_MIN (FScore.fin 0) hne, hlen, lowercase_length]
  exact (scoreLoops_eq_spec pat text h1 (lowercase pat) 0 _ _ (by simp) (by omega)
    (Or.inl rfl) (text.length - 1) (by rw [lowercase_length]; omega)).1

theorem score_eq_score_spec (pat text : List Nat) (h1 : 0 < pat.length)
    (h2 : pat.length < text.length) :
    score pat text = score_spec pat text := by
  have hg1 : ¬(pat.length = 0 ∨ pat.length > text.length) := by omega
  have hg2 : ¬pat.length = text.length := by omega
  rw [score_eq_specM pat text h1 h2]
  unfold score_spec
  rw [if_neg hg1, if_neg hg2]

/-! ### Finiteness of the DP result when a folded subsequence match exists -/

theorem fmax_eq_negInf_iff (a b : FScore) :
    a.fmax b = .negInf ↔ a = .negInf ∧ b = .negInf := by
  cases a <;> cases b <;>
    simp only [FScore.fmax, FScore.sgt] <;> split <;> simp_all

theorem add_fin_eq_negInf_iff (x : FScore) (g : ℚ) :
    x.add (.fin g) = .negInf ↔ x = .negInf := by
  cases x <;> simp [FScore.add]

theorem add_fin_ne_posInf (x : FScore) (g : ℚ) (h : x ≠ .posInf) :
    x.add (.fin g) ≠ .posInf := by
  cases x <;> simp_all [FScore.add]

theorem fmax_ne_posInf (a b : FScore) (ha : a ≠ .posInf) (hb : b ≠ .posInf) :
    a.fmax b ≠ .posInf := by
  unfold FScore.fmax
  split <;> assumption

theorem specRowCell_ne_posInf (pat text : List Nat) (pD pM : Nat → FScore)
    (pi ti : Nat) (run : FScore)
    (hD : ∀ j, pD j ≠ .posInf) (hM : ∀ j, pM j ≠ .posInf)
    (hrun : run ≠ .posInf) :
    (specRowCell pat text pD pM pi ti run).1 ≠ .posInf ∧
    (specRowCell pat text pD pM pi ti run).2 ≠ .posInf := by
  unfold specRowCell
  by_cases hc : (lowercase pat).getD pi 0 = (lowercase text).getD ti 0
  · rw [if_pos hc]
    have hd : (if pi = 0 then
        FScore.fin ((ti : ℚ) * SCORE_GAP_LEADING + (compute_bonuses text).getD ti 0)
      else if 0 < ti then
        FScore.fmax ((pM (ti - 1)).add (.fin ((compute_bonuses text).getD ti 0)))
          ((pD (ti - 1)).add (.fin SCORE_MATCH_CONSECUTIVE))
      else SCORE_MIN) ≠ .posInf := by
      split
      · simp
      · split
        · exact fmax_ne_posInf _ _ (add_fin_ne_posInf _ _ (hM _))
            (add_fin_ne_posInf _ _ (hD _))
        · simp [SCORE_MIN]
    exact ⟨hd, fmax_ne_posInf _ _ hd (add_fin_ne_posInf _ _ hrun)⟩
  · rw [if_neg hc]
    exact ⟨by simp [SCORE_MIN], add_fin_ne_posInf _ _ hrun⟩

theorem specRow_ne_posInf (pat text : List Nat) (pD pM : Nat → FScore) (pi : Nat)
    (hD : ∀ j, pD j ≠ .posInf) (hM : ∀ j, pM j ≠ .posInf) :
    ∀ ti, (specRow pat text pD pM pi ti).1 ≠ .posInf ∧
      (specRow pat text pD pM pi ti).2 ≠ .posInf := by
  intro ti
  induction ti with
  | zero =>
    exact specRowCell_ne_posInf pat text pD pM pi 0 SCORE_MIN hD hM (by simp [SCORE_MIN])
  | succ tj ih =>
    exact specRowCell_ne_posInf pat text pD pM pi (tj + 1) _ hD hM ih.2

theorem specTable_ne_posInf (pat text : List Nat) :
    ∀ pi ti, specD pat text pi ti ≠ .posInf ∧ specM pat text pi ti ≠ .posInf := by
  intro pi
  induction pi with
  | zero =>
    intro ti
    rw [specD_eq_specRow, specM_eq_specRow]
    exact specRow_ne_posInf pat text _ _ 0
      (fun _ => by simp [specPrevD, SCORE_MIN]) (fun _ => by simp [specPrevM, SCORE_MIN]) ti
  | succ pj ihp =>
    intro ti
    rw [specD_eq_specRow, specM_eq_specRow]
    exact specRow_ne_posInf pat text _ _ (pj + 1)
      (fun j => (ihp j).1) (fun j => (ihp j).2) ti

theorem specRow_eq_cell (pat text : List Nat) (pD pM : Nat → FScore) (pi : Nat) :
    ∀ ti, specRow pat text pD pM pi ti =
      specRowCell pat text pD pM pi ti
        (if ti = 0 then SCORE_MIN else (specRow pat text pD pM pi (ti - 1)).2) := by
  intro ti
  cases ti <;> simp [specRow]

theorem specRowCell_M_ne_negInf_of_run (pat text : List Nat) (pD pM : Nat → FScore)
    (pi ti : Nat) (run : FScore) (hrun : run ≠ .negInf) :
    (specRowCell pat text pD pM pi ti run).2 ≠ .negInf := by
  unfold specRowCell
  by_cases hc : (lowercase pat).getD pi 0 = (lowercase text).getD ti 0
  · rw [if_pos hc]
    intro hcontra
    rw [fmax_eq_negInf_iff] at hcontra
    exact hrun ((add_fin_eq_negInf_iff _ _).mp hcontra.2)
  · rw [if_neg hc]
    intro hcontra
    exact hrun ((add_fin_eq_negInf_iff _ _).mp hcontra)

theorem specRowCell_M_ne_negInf_of_D (pat text : List Nat) (pD pM : Nat → FScore)
    (pi ti : Nat) (run : FScore)
    (hd : (specRowCell pat text pD pM pi ti run).1 ≠ .negInf) :
    (specRowCell pat text pD pM pi ti run).2 ≠ .negInf := by
  revert hd
  unfold specRowCell
  by_cases hc : (lowercase pat).getD pi 0 = (lowercase text).getD ti 0
  · rw [if_pos hc]
    intro hd hcontra
    rw [fmax_eq_negInf_iff] at hcontra
    exact hd hcontra.1
  · rw [if_neg hc]
    intro hd
    exact absurd rfl hd

theorem specRow_M_mono (pat text : List Nat) (pD pM : Nat → FScore) (pi : Nat)
    (ti1 ti2 : Nat) (hle : ti1 ≤ ti2)
    (h : (specRow pat text pD pM pi ti1).2 ≠ .negInf) :
    (specRow pat text pD pM pi ti2).2 ≠ .negInf := by
  induction ti2 with
  | zero =>
    have : ti1 = 0 := by omega
    rwa [this] at h
  | succ tj ih =>
    by_cases he : ti1 = tj + 1
    · rwa [he] at h
    · have h2 := ih (by omega)
      simp only [specRow]
      exact specRowCell_M_ne_negInf_of_run pat text pD pM pi (tj + 1) _ h2

theorem split_sublist_concat {α : Type} {l r : List α} {a b : α}
    (h : (l ++ [a]).Sublist (r ++ [b])) :
    (l ++ [a]).Sublist r ∨ (a = b ∧ l.Sublist r) := by
  have hrev : (a :: l.reverse).Sublist (b :: r.reverse) := by
    have := h.reverse
    simpa using this
  rcases List.cons_sublist_cons'.mp hrev with h1 | ⟨heq, h2⟩
  · left
    have := h1.reverse
    simpa using this
  · right
    refine ⟨heq, ?_⟩
    have := h2.reverse
    simpa using this

theorem take_succ_concat {α : Type} [Inhabited α] (l : List α) (k : Nat)
    (h : k < l.length) : l.take (k + 1) = l.take k ++ [l[k]] := by
  rw [List.take_succ, List.getElem?_eq_getElem h]
  rfl

theorem specM_ne_negInf_of_take (pat text : List Nat) :
    ∀ (s pi ti : Nat), pi + ti = s →
      pi < (lowercase pat).length → ti < (lowercase text).length →
      (((lowercase pat).take (pi + 1)).Sublist ((lowercase text).take (ti + 1))) →
      specM pat text pi ti ≠ .negInf := by
  intro s
  induction s using Nat.strong_induction_on with
  | _ s ih =>
    intro pi ti hs hpi hti hsub
    have hp1 : (lowercase pat).take (pi + 1) =
        (lowercase pat).take pi ++ [(lowercase pat)[pi]] :=
      take_succ_concat _ pi hpi
    have ht1 : (lowercase text).take (ti + 1) =
        (lowercase text).take ti ++ [(lowercase text)[ti]] :=
      take_succ_concat _ ti hti
    rw [hp1, ht1] at hsub
    rcases split_sublist_concat hsub with hA | ⟨heq, hB⟩
    · have hlen := hA.length_le
      simp only [List.length_append, List.length_take, List.length_cons,
        List.length_nil] at hlen
      have hti0 : 0 < ti := by omega
      have hsub2 : ((lowercase pat).take (pi + 1)).Sublist
          ((lowercase text).take ((ti - 1) + 1)) := by
        rw [hp1]
        have heq2 : (ti - 1) + 1 = ti := by omega
        rw [heq2]
        exact hA
      have hM := ih (pi + (ti - 1)) (by omega) pi (ti - 1) rfl hpi (by omega) hsub2
      rw [specM_eq_specRow] at hM ⊢
      exact specRow_M_mono pat text _ _ pi (ti - 1) ti (by omega) hM
    · have hgetp : (lowercase pat).getD pi 0 = (lowercase pat)[pi] := by
        simp [List.getElem?_eq_getElem hpi]
      have hgett : (lowercase text).getD ti 0 = (lowercase text)[ti] := by
        simp [List.getElem?_eq_getElem hti]
      have hceq : (lowercase pat).getD pi 0 = (lowercase text).getD ti 0 := by
        rw [hgetp, hgett, heq]
      have hd : (specRow pat text (specPrevD pat text pi) (specPrevM pat text pi)
          pi ti).1 ≠ .negInf := by
        rw [specRow_eq_cell]
        unfold specRowCell
        rw [if_pos hceq]
        cases pi with
        | zero => simp
        | succ pj =>
          have hlen := hB.length_le
          simp only [List.length_take] at hlen
          have hti0 : 0 < ti := by omega
          have hsub3 : ((lowercase pat).take (pj + 1)).Sublist
              ((lowercase text).take ((ti - 1) + 1)) := by
            have heq2 : (ti - 1) + 1 = ti := by omega
            rw [heq2]
            exact hB
          have hMprev := ih (pj + (ti - 1)) (by omega) pj (ti - 1) rfl
            (by omega) (by omega) hsub3
          simp only [if_neg (Nat.succ_ne_zero pj), if_pos hti0]
          intro hcontra
          rw [fmax_eq_negInf_iff] at hcontra
          exact hMprev ((add_fin_eq_negInf_iff _ _).mp hcontra.1)
      rw [specM_eq_specRow, specRow_eq_cell]
      apply specRowCell_M_ne_negInf_of_D
      rw [← specRow_eq_cell]
      exact hd

theorem score_fin_of_sublist (pat text : List Nat) (h1 : 0 < pat.length)
    (h2 : pat.length < text.length)
    (hsub : (lowercase pat).Sublist (lowercase text)) :
    ∃ q, score pat text = .fin q := by
  rw [score_eq_specM pat text h1 h2]
  have hplen : (pat.length - 1) + 1 = pat.length := by omega
  have htlen : (text.length - 1) + 1 = text.length := by omega
  have htake : ((lowercase pat).take ((pat.length - 1) + 1)).Sublist
      ((lowercase text).take ((text.length - 1) + 1)) := by
    rw [hplen, htlen, ← lowercase_length pat, ← lowercase_length text,
      List.take_length, List.take_length]
    exact hsub
  have hne := specM_ne_negInf_of_take pat text ((pat.length - 1) + (text.length - 1))
    (pat.length - 1) (text.length - 1) rfl
    (by rw [lowercase_length]; omega) (by rw [lowercase_length]; omega) htake
  have hnp := (specTable_ne_posInf pat text (pat.length - 1) (text.length - 1)).2
  cases hval : specM pat text (pat.length - 1) (text.length - 1) with
  | negInf => exact absurd hval hne
  | posInf => exact absurd hval hnp
  | fin q => exact ⟨q, rfl⟩

/-! ### The bonus table and case folding -/

theorem computeBonusesAux_getD (l : List Nat) :
    ∀ (prev : Nat) (i : Nat), i < l.length →
      (computeBonusesAux prev l).getD i 0 =
        compute_bonus (l.getD i 0) (if i = 0 then prev else l.getD (i - 1) 0) := by
  induction l with
  | nil => intro prev i h; simp at h
  | cons c rest ih =>
    intro prev i h
    cases i with
    | zero => simp [computeBonusesAux]
    | succ j =>
      simp only [computeBonusesAux, List.getD_cons_succ]
      rw [ih c j (by simpa using Nat.lt_of_succ_lt_succ (by simpa using h))]
      congr 1
      cases j with
      | zero => simp
      | succ jj => simp

theorem toLower_toLower (b : Nat) : toLower (toLower b) = toLower b := by
  by_cases h : 65 ≤ b ∧ b ≤ 90
  · have h1 : toLower b = b + 32 := by unfold toLower; rw [if_pos h]
    rw [h1]
    unfold toLower
    rw [if_neg (show ¬(65 ≤ b + 32 ∧ b + 32 ≤ 90) by omega)]
  · have h1 : toLower b = b := by unfold toLower; rw [if_neg h]
    rw [h1, h1]

theorem lowercase_idem (s : List Nat) : lowercase (lowercase s) = lowercase s := by
  induction s with
  | nil => rfl
  | cons c rest ih =>
    simp only [lowercase, List.map_cons] at ih ⊢
    rw [toLower_toLower]
    simpa using ih

theorem score_lowercase (pat text : List Nat) :
    score pat text = score (lowercase pat) text := by
  unfold score
  rw [lowercase_length, lowercase_idem]

theorem specD_recurrence (pat text : List Nat) (pi ti : Nat) (hpi : 0 < pi)
    (hti : 0 < ti)
    (hc : (lowercase pat).getD pi 0 = (lowercase text).getD ti 0) :
    specD pat text pi ti =
      FScore.fmax
        ((specM pat text (pi - 1) (ti - 1)).add
          (.fin ((compute_bonuses text).getD ti 0)))
        ((specD pat text (pi - 1) (ti - 1)).add (.fin SCORE_MATCH_CONSECUTIVE)) := by
  cases pi with
  | zero => omega
  | succ pj =>
    rw [specD_eq_specRow, specRow_eq_cell]
    unfold specRowCell
    rw [if_pos hc]
    simp only [if_neg (Nat.succ_ne_zero pj), if_pos hti, Nat.add_sub_cancel]
    rfl

/-! ### Claim theorems -/

/-- Claim C1: for every pattern and text with `0 < len(P) < len(T)`, the score
computed with the rolling buffers equals the full-table dynamic program of
spec section 4.3; in particular the `D` entries satisfy the recurrence
`D[pi][ti] = max(prevBest[ti-1] + bonus[ti], prevRun[ti-1] + CONSECUTIVE_BONUS)`
for `pi > 0`, `ti > 0` on equal folded characters, and the final result is the
last entry of the `M` buffer (`M[len(P)-1][len(T)-1]`). -/
theorem C1_rolling_buffers_equal_full_table (pat text : List Nat)
    (h1 : 0 < pat.length) (h2 : pat.length < text.length) :
    score pat text = score_spec pat text ∧
    score pat text = specM pat text (pat.length - 1) (text.length - 1) ∧
    (∀ pi ti : Nat, 0 < pi → 0 < ti →
      (lowercase pat).getD pi 0 = (lowercase text).getD ti 0 →
      specD pat text pi ti =
        FScore.fmax
          ((specM pat text (pi - 1) (ti - 1)).add
            (.fin ((compute_bonuses text).getD ti 0)))
          ((specD pat text (pi - 1) (ti - 1)).add
            (.fin SCORE_MATCH_CONSECUTIVE))) :=
  ⟨score_eq_score_spec pat text h1 h2, score_eq_specM pat text h1 h2,
    fun pi ti hpi hti hc => specD_recurrence pat text pi ti hpi hti hc⟩

/-- Witness for C1 at pattern `"a"`, text `"ba"`. -/
theorem C1_witness :
    0 < ([97] : List Nat).length ∧
    ([97] : List Nat).length < ([98, 97] : List Nat).length ∧
    score [97] [98, 97] = score_spec [97] [98, 97] :=
  ⟨by decide, by decide,
    (C1_rolling_buffers_equal_full_table [97] [98, 97] (by decide) (by decide)).1⟩

/-- Claim C2: `has_match(P,T)` is true iff `P` is empty or `P` is a
subsequence of `T` under exact (non-folded) character comparison; in
particular the empty pattern always matches. -/
theorem C2_has_match_iff_subsequence (pat text : List Nat) :
    has_match pat text = true ↔ (pat = [] ∨ pat.Sublist text) := by
  rw [has_match_iff_sublist]
  constructor
  · exact fun h => Or.inr h
  · rintro (rfl | h)
    · exact List.nil_sublist text
    · exact h

/-- Claim C3: the bonus at position `i` is a pure function of `T[i]` and the
preceding character (a virtual `'/'` before position 0), with the claimed
value table, one entry per text position, independent of the pattern. -/
theorem C3_bonus_table (text : List Nat) (i : Nat) (h : i < text.length) :
    (compute_bonuses text).length = text.length ∧
    (compute_bonuses text).getD i 0 =
      compute_bonus (text.getD i 0) (if i = 0 then 47 else text.getD (i - 1) 0) ∧
    (∀ cur prev : Nat,
      (65 ≤ cur ∧ cur ≤ 90 →
        ((97 ≤ prev ∧ prev ≤ 122 → compute_bonus cur prev = 0.7) ∧
         (prev = 47 → compute_bonus cur prev = 0.9) ∧
         ((prev = 45 ∨ prev = 95 ∨ prev = 32) → compute_bonus cur prev = 0.8) ∧
         (prev = 46 → compute_bonus cur prev = 0.6) ∧
         (¬(97 ≤ prev ∧ prev ≤ 122) ∧ prev ≠ 47 ∧
            ¬(prev = 45 ∨ prev = 95 ∨ prev = 32) ∧ prev ≠ 46 →
          compute_bonus cur prev = 0))) ∧
      ((97 ≤ cur ∧ cur ≤ 122) ∨ (48 ≤ cur ∧ cur ≤ 57) →
        ((prev = 47 → compute_bonus cur prev = 0.9) ∧
         ((prev = 45 ∨ prev = 95 ∨ prev = 32) → compute_bonus cur prev = 0.8) ∧
         (prev = 46 → compute_bonus cur prev = 0.6) ∧
         (prev ≠ 47 ∧ ¬(prev = 45 ∨ prev = 95 ∨ prev = 32) ∧ prev ≠ 46 →
          compute_bonus cur prev = 0))) ∧
      (¬(65 ≤ cur ∧ cur ≤ 90) → ¬((97 ≤ cur ∧ cur ≤ 122) ∨ (48 ≤ cur ∧ cur ≤ 57)) →
        compute_bonus cur prev = 0)) := by
  refine ⟨compute_bonuses_length text, computeBonusesAux_getD text 47 i h, ?_⟩
  intro cur prev
  refine ⟨fun hu => ⟨fun hl => ?_, fun hs => ?_, fun hw => ?_, fun hdot => ?_,
      fun hother => ?_⟩,
    fun hld => ⟨fun hs => ?_, fun hw => ?_, fun hdot => ?_, fun hother => ?_⟩,
    fun hnu hnl => ?_⟩
  all_goals unfold compute_bonus
  all_goals split_ifs <;> first | rfl | omega

/-- Witness for C3 at text `"/B"`, position 1. -/
theorem C3_witness :
    1 < ([47, 66] : List Nat).length ∧
    (compute_bonuses [47, 66]).getD 1 0 =
      compute_bonus (([47, 66] : List Nat).getD 1 0)
        (if (1 : Nat) = 0 then 47 else ([47, 66] : List Nat).getD 0 0) :=
  ⟨by decide, (C3_bonus_table [47, 66] 1 (by decide)).2.1⟩

/-- Counterexample to claim C4 as stated: the empty pattern and empty text
have equal lengths, yet `score` returns the sentinel minimum (the
empty-pattern guard fires before the equal-length guard). -/
theorem C4_counterexample :
    ([] : List Nat).length = ([] : List Nat).length ∧
    score [] [] ≠ SCORE_MAX :=
  ⟨rfl, by with_unfolding_all decide⟩

/-- Claim C4 (amended): `score(P,T)` equals the sentinel maximum whenever
`len(P) == len(T)` and `P` is non-empty. -/
theorem C4_equal_length_max (pat text : List Nat) (h1 : 0 < pat.length)
    (h2 : pat.length = text.length) : score pat text = SCORE_MAX := by
  unfold score
  rw [if_neg (show ¬(pat.length = 0 ∨ pat.length > text.length) by omega),
    if_pos h2]

/-- Witness for the amended C4 at pattern `"a"`, text `"b"`. -/
theorem C4_witness :
    0 < ([97] : List Nat).length ∧
    ([97] : List Nat).length = ([98] : List Nat).length ∧
    score [97] [98] = SCORE_MAX :=
  ⟨by decide, by decide, C4_equal_length_max [97] [98] (by decide) (by decide)⟩

/-- Claim C5: if the pattern is empty or longer than the text, `score`
returns the sentinel minimum, with no error signalled. -/
theorem C5_degenerate_min (pat text : List Nat)
    (h : pat = [] ∨ pat.length > text.length) : score pat text = SCORE_MIN := by
  unfold score
  rw [if_pos ?_]
  rcases h with rfl | hgt
  · exact Or.inl rfl
  · exact Or.inr hgt

/-- Witness for C5 at the empty pattern and text `"a"`. -/
theorem C5_witness :
    (([] : List Nat) = [] ∨ ([] : List Nat).length > ([97] : List Nat).length) ∧
    score [] [97] = SCORE_MIN :=
  ⟨Or.inl rfl, C5_degenerate_min [] [97] (Or.inl rfl)⟩

/-- Claim C6: gap sensitivity on concrete inputs:
`score("a","*a") = -0.005`, `score("a","*ba") = -0.010`,
`score("a","**a*") = -0.005*2 + -0.005`. -/
theorem C6_gap_sensitivity :
    score [97] [42, 97] = .fin (-0.005) ∧
    score [97] [42, 98, 97] = .fin (-0.010) ∧
    score [97] [42, 42, 97, 42] = .fin (-0.005 * 2 + -0.005) := by
  refine ⟨?_, ?_, ?_⟩ <;> with_unfolding_all decide

/-- Claim C7: `score("aa","*aa") = -0.005 + 1.0`, and this strictly exceeds
`score("aa","*a*a")`. -/
theorem C7_consecutive_preference :
    score [97, 97] [42, 97, 97] = .fin (-0.005 + 1.0) ∧
    FScore.sgt (score [97, 97] [42, 97, 97]) (score [97, 97] [42, 97, 42, 97]) = true := by
  constructor <;> with_unfolding_all decide

/-- Claim C8: the score is invariant under ASCII-lowercasing the pattern
(the engine folds both sides), whereas `has_match` compares raw characters:
`has_match("A","xa")` is false while `has_match(lowercase "A","xa")` is true. -/
theorem C8_case_folding_asymmetry :
    (∀ pat text : List Nat, score pat text = score (lowercase pat) text) ∧
    has_match [65] [120, 97] = false ∧
    has_match (lowercase [65]) [120, 97] = true := by
  refine ⟨score_lowercase, ?_, ?_⟩ <;> decide

/-- Claim C9: both operations are total: the index-checked versions of
`has_match` and `score` (where any out-of-bounds access or failing final
unwrap would yield `none`) return `some` of the unchecked result on every
input. -/
theorem C9_no_panics (pat text : List Nat) :
    has_match_checked pat text = some (has_match pat text) ∧
    score_checked pat text = some (score pat text) :=
  ⟨has_match_checked_eq pat text, score_checked_eq pat text⟩

/-- Claim C10: under `0 < len(P) < len(T)`, if the folded pattern is a
subsequence of the folded text then the score is finite: strictly above the
sentinel minimum and strictly below the sentinel maximum. -/
theorem C10_finite_score (pat text : List Nat) (h1 : 0 < pat.length)
    (h2 : pat.length < text.length)
    (hsub : (lowercase pat).Sublist (lowercase text)) :
    FScore.sgt (score pat text) SCORE_MIN = true ∧
    FScore.sgt SCORE_MAX (score pat text) = true := by
  obtain ⟨q, hq⟩ := score_fin_of_sublist pat text h1 h2 hsub
  rw [hq]
  exact ⟨rfl, rfl⟩

/-- Witness for C10 at pattern `"a"`, text `"ab"`. -/
theorem C10_witness :
    (0 < ([97] : List Nat).length ∧
     ([97] : List Nat).length < ([97, 98] : List Nat).length ∧
     (lowercase [97]).Sublist (lowercase [97, 98])) ∧
    FScore.sgt (score [97] [97, 98]) SCORE_MIN = true ∧
    FScore.sgt SCORE_MAX (score [97] [97, 98]) = true :=
  ⟨⟨by decide, by decide, by decide⟩,
    C10_finite_score [97] [97, 98] (by decide) (by decide) (by decide)⟩

end Fzy
